import Mathlib

/-!
Verification of the browser viewer in `src/app/src/AppContext.jsx`.

JavaScript strings are embedded as `List Char`; JavaScript plain objects used
as string-keyed maps are embedded as insertion-ordered association lists
(`jsGet` / `jsInsert` / `jsDelete` mirror property read, property assignment
and `delete`).  `encodeURIComponent` / `decodeURIComponent` are embedded at
the character level (UTF-8 percent-encoding); since `decodeURIComponent`
throws `URIError` on malformed escapes, its embedding is `Option`-valued, and
so is `stringQs`, which calls it.
-/

namespace AppContext

abbrev Str := List Char

abbrev QueryParams := List (Str × Str)

/-- JavaScript property read `obj[k]` on a string-keyed object. -/
def jsGet (m : List (Str × β)) (k : Str) : Option β :=
  match m with
  | [] => none
  | (k', v) :: t => if k' = k then some v else jsGet t k

/-- JavaScript property assignment `obj[k] = v`: an existing key keeps its
position and gets the new value, a new key is appended. -/
def jsInsert (m : List (Str × β)) (k : Str) (v : β) : List (Str × β) :=
  match m with
  | [] => [(k, v)]
  | (k', v') :: t => if k' = k then (k, v) :: t else (k', v') :: jsInsert t k v

/-- JavaScript `delete obj[k]`: drop the entry with key `k`. -/
def jsDelete (m : List (Str × β)) (k : Str) : List (Str × β) :=
  match m with
  | [] => []
  | (k', v) :: t => if k' = k then jsDelete t k else (k', v) :: jsDelete t k

/-- JavaScript truthiness of a string-valued expression that may be
`undefined`: `undefined` and the empty string are falsy. -/
def jsTruthy : Option Str → Bool
  | none => false
  | some s => !s.isEmpty

/-- The characters `encodeURIComponent` leaves unescaped:
`A-Z a-z 0-9 - _ . ! ~ * ' ( )`. -/
def isUnreserved (c : Char) : Bool :=
  c.isAlpha || c.isDigit || c == '-' || c == '_' || c == '.' || c == '!' ||
    c == '~' || c == '*' || c == Char.ofNat 39 || c == '(' || c == ')'

/-- Uppercase hexadecimal digit for `n < 16`. -/
def hexDigitChar (n : Nat) : Char :=
  if n < 10 then Char.ofNat (48 + n) else Char.ofNat (55 + n)

/-- UTF-8 bytes of the code point `n` (as `Nat`s below 256). -/
def utf8Bytes (n : Nat) : List Nat :=
  if n < 0x80 then [n]
  else if n < 0x800 then [0xC0 + n / 64, 0x80 + n % 64]
  else if n < 0x10000 then [0xE0 + n / 4096, 0x80 + n / 64 % 64, 0x80 + n % 64]
  else [0xF0 + n / 262144, 0x80 + n / 4096 % 64, 0x80 + n / 64 % 64, 0x80 + n % 64]

/-- Percent-encoding of one character, as done by `encodeURIComponent`. -/
def encChar (c : Char) : Str :=
  if isUnreserved c then [c]
  else (utf8Bytes c.toNat).foldr
    (fun b acc => '%' :: hexDigitChar (b / 16) :: hexDigitChar (b % 16) :: acc) []

/-- JavaScript `encodeURIComponent`. -/
def encodeURIComponent (s : Str) : Str :=
  s.foldr (fun c acc => encChar c ++ acc) []

/-- Value of a (case-insensitive) hexadecimal digit. -/
def hexVal (c : Char) : Option Nat :=
  if '0' ≤ c ∧ c ≤ '9' then some (c.toNat - 48)
  else if 'A' ≤ c ∧ c ≤ 'F' then some (c.toNat - 55)
  else if 'a' ≤ c ∧ c ≤ 'f' then some (c.toNat - 87)
  else none

/-- Byte value of a two-hex-digit escape body. -/
def hexByte (h l : Char) : Option Nat :=
  match hexVal h, hexVal l with
  | some hv, some lv => some (16 * hv + lv)
  | _, _ => none

/-- Read one percent-escape (`%` followed by two hex digits) from the front
of the string, returning its byte value and the remainder; `none` when the
front is not a well-formed escape. -/
def readEsc : Str → Option (Nat × Str)
  | c :: h :: l :: rest =>
    if c = '%' then (hexByte h l).map (fun b => (b, rest)) else none
  | _ => none

/-- The scan loop of JavaScript `decodeURIComponent`, made structural on a
fuel counter: every step consumes at least one character, so a fuel of the
string's length is always sufficient (see `decodeURIComponent` below).
A character other than `%` passes through unchanged; a `%` must start a
well-formed escape whose byte either is ASCII or starts a valid UTF-8
sequence of further escape bytes (overlong encodings, surrogate code points
and out-of-range code points throw `URIError`, embedded as `none`). -/
def decodeAux : Nat → Str → Option Str
  | _, [] => some []
  | 0, _ :: _ => none
  | fuel + 1, c :: rest =>
    if c = '%' then
      match readEsc (c :: rest) with
      | none => none
      | some (b1, rest1) =>
        if b1 < 0x80 then
          (decodeAux fuel rest1).map (fun r => Char.ofNat b1 :: r)
        else if 0xC2 ≤ b1 ∧ b1 ≤ 0xDF then
          match readEsc rest1 with
          | some (b2, rest2) =>
            if 0x80 ≤ b2 ∧ b2 < 0xC0 then
              (decodeAux fuel rest2).map
                (fun r => Char.ofNat ((b1 - 0xC0) * 64 + (b2 - 0x80)) :: r)
            else none
          | none => none
        else if 0xE0 ≤ b1 ∧ b1 ≤ 0xEF then
          match readEsc rest1 with
          | some (b2, rest2) =>
            match readEsc rest2 with
            | some (b3, rest3) =>
              if (0x80 ≤ b2 ∧ b2 < 0xC0) ∧ (0x80 ≤ b3 ∧ b3 < 0xC0) then
                if 0x800 ≤ (b1 - 0xE0) * 4096 + (b2 - 0x80) * 64 + (b3 - 0x80) ∧
                    ¬ (0xD800 ≤ (b1 - 0xE0) * 4096 + (b2 - 0x80) * 64 + (b3 - 0x80) ∧
                      (b1 - 0xE0) * 4096 + (b2 - 0x80) * 64 + (b3 - 0x80) ≤ 0xDFFF) then
                  (decodeAux fuel rest3).map
                    (fun r => Char.ofNat ((b1 - 0xE0) * 4096 + (b2 - 0x80) * 64 + (b3 - 0x80)) :: r)
                else none
              else none
            | none => none
          | none => none
        else if 0xF0 ≤ b1 ∧ b1 ≤ 0xF4 then
          match readEsc rest1 with
          | some (b2, rest2) =>
            match readEsc rest2 with
            | some (b3, rest3) =>
              match readEsc rest3 with
              | some (b4, rest4) =>
                if (0x80 ≤ b2 ∧ b2 < 0xC0) ∧ (0x80 ≤ b3 ∧ b3 < 0xC0) ∧
                    (0x80 ≤ b4 ∧ b4 < 0xC0) then
                  if 0x10000 ≤ (b1 - 0xF0) * 262144 + (b2 - 0x80) * 4096 + (b3 - 0x80) * 64 + (b4 - 0x80) ∧
                      (b1 - 0xF0) * 262144 + (b2 - 0x80) * 4096 + (b3 - 0x80) * 64 + (b4 - 0x80) < 0x110000 then
                    (decodeAux fuel rest4).map
                      (fun r => Char.ofNat ((b1 - 0xF0) * 262144 + (b2 - 0x80) * 4096 + (b3 - 0x80) * 64 + (b4 - 0x80)) :: r)
                  else none
                else none
              | none => none
            | none => none
          | none => none
        else none
    else (decodeAux fuel rest).map (fun r => c :: r)

/-- JavaScript `decodeURIComponent` (`Option`-valued: `none` is a thrown
`URIError`).  Each scan step consumes at least one character, so the string's
length is enough fuel. -/
def decodeURIComponent (s : Str) : Option Str :=
  decodeAux s.length s

/-- The function `qsString` from `AppContext.jsx`: `Object.keys(obj).map(key =>
encodeURIComponent(key) + '=' + encodeURIComponent(obj[key])).join('&')`. -/
def qsString (obj : QueryParams) : Str :=
  List.intercalate ['&']
    (obj.map (fun p => encodeURIComponent p.1 ++ '=' :: encodeURIComponent p.2))

/-- The leading `while` loop of `stringQs`: advance past any leading run of
`?` or `#` characters. -/
def stripLead : Str → Str
  | [] => []
  | c :: rest => if c = '?' || c = '#' then stripLead rest else c :: rest

/-- The function `stringQs` from `AppContext.jsx`: strip leading `?`/`#`, split on `&`,
keep exactly the segments that split on `=` into exactly two parts, with the
raw text before `=` as key and the percent-decoded text after it as value.
(The source's `null === parts[1]` test is dead code: `split` never yields
`null`.)  `none` models the `URIError` thrown by `decodeURIComponent`. -/
def stringQs (s : Str) : Option QueryParams :=
  (List.splitOn '&' (stripLead s)).foldlM
    (fun obj pair =>
      match List.splitOn '=' pair with
      | [k, v] =>
        match decodeURIComponent v with
        | some d => some (jsInsert obj k d)
        | none => none
      | _ => some obj)
    []

example : encodeURIComponent ("a b".data) = ("a%20b".data) := by decide
example : decodeURIComponent ("a%20b".data) = some ("a b".data) := by decide
example : stringQs ("?id=a1".data) = some [(("id".data), ("a1".data))] := by decide
example : qsString [(("t".data), ("brands".data))] = ("t=brands".data) := by decide

/-! ## The name-suggestion-index cache (`useNsi`) -/

/-- An item of a fetched `nsi.min.json` category, before the loader annotates
it: its `id` plus the rest of its JSON fields, abstracted as a payload. -/
structure JItem (α : Type) where
  id : Str
  payload : α
  deriving DecidableEq

/-- A fetched category: its `items` field is `none` when it is absent or not
an array. -/
structure JCategory (α : Type) where
  items : Option (List (JItem α))
  deriving DecidableEq

/-- The fetched `nsi.min.json` body: the `nsi` object (composite key `tkv` to
category, in JSON key order) and `_meta`. -/
structure JNsi (α : Type) where
  nsi : List (Str × JCategory α)
  meta : α
  deriving DecidableEq

/-- An item record after the loader sets `item.tkv = tkv`. -/
structure Item (α : Type) where
  id : Str
  tkv : Str
  payload : α
  deriving DecidableEq

/-- The cache built by `useNsi`: `index.path`, `index.id`, `index.meta`. -/
structure NsiIndex (α : Type) where
  path : List (Str × List (Item α))
  id : List (Str × Item α)
  meta : Option α
  deriving DecidableEq

/-- The mutation `item.tkv = tkv`, remembering the owning composite key.  Because the
source mutates the item records in place, the list stored in `index.path` and
the records inserted into `index.id` are the annotated ones. -/
def tagItem (tkv : Str) (it : JItem α) : Item α :=
  ⟨it.id, tkv, it.payload⟩

/-- The `for (const [tkv, category] of Object.entries(json.nsi))` loop of
`useNsi`, threading the `index.path` / `index.id` accumulators. -/
def buildAux : List (Str × JCategory α) → List (Str × List (Item α)) →
    List (Str × Item α) → List (Str × List (Item α)) × List (Str × Item α)
  | [], path, ids => (path, ids)
  | (tkv, category) :: rest, path, ids =>
    match category.items with
    | none => buildAux rest path ids
    | some items =>
      let tagged := items.map (tagItem tkv)
      buildAux rest (jsInsert path tkv tagged)
        (tagged.foldl (fun m it => jsInsert m it.id it) ids)

/-- The cache population of `useNsi`:
`let index = { path: {}, id: {}, meta: json._meta }` followed by the loop. -/
def buildIndex (json : JNsi α) : NsiIndex α :=
  ⟨(buildAux json.nsi [] []).1, (buildAux json.nsi [] []).2, some json.meta⟩

/-! ## The icon table (`useTaginfo`) -/

/-- A fetched taginfo tag record; each field is `none` when absent. -/
structure Tag where
  key : Option Str
  value : Option Str
  icon_url : Option Str
  deriving DecidableEq

/-- The composite key the `useTaginfo` loop builds: `kv = tag.key`, plus
`'/' + tag.value` when `tag.value` is truthy. -/
def iconKV (tag : Tag) : Str :=
  tag.key.getD [] ++ (if jsTruthy tag.value then '/' :: tag.value.getD [] else [])

/-- The `for (const tag of tags)` loop of `useTaginfo`:
skip when `!tag.icon_url || !tag.key`, build the composite key, then
`icons[kv] = tag.icon_url`. -/
def buildIcons (tags : List Tag) : List (Str × Str) :=
  tags.foldl
    (fun icons tag =>
      if !jsTruthy tag.icon_url || !jsTruthy tag.key then icons
      else jsInsert icons (iconKV tag) (tag.icon_url.getD []))
    []

/-! ## The URL synchronization effects (`AppContextProvider`) -/

/-- The pieces of the router location the two effects read. -/
structure Loc where
  pathname : Str
  search : Str
  hash : Str
  deriving DecidableEq

/-- The component state the two effects read and write:
`params` and `hash` from `useState`. -/
structure SyncState where
  params : QueryParams
  hash : Str
  deriving DecidableEq

/-- The comparison-and-commit tail of the inbound effect:
`const oldSearch = '?' + qsString(params); if (hash !== newHash || oldSearch
!== newSearch) { _didChangeLocation = true; setHash(newHash);
setParams(stringQs(newSearch)); }`.  The returned `Bool` is
`_didChangeLocation`; `none` models a `URIError` escaping the effect. -/
def inboundCommit (st : SyncState) (newHash newSearch : Str) :
    Option (SyncState × Bool) :=
  if st.hash ≠ newHash ∨ '?' :: qsString st.params ≠ newSearch then
    match stringQs newSearch with
    | none => none
    | some ps => some (⟨ps, newHash⟩, true)
  else some (st, false)

/-- The inbound effect (location → params/hash) of `AppContextProvider`.
When the `id` parameter is truthy and the index is still loading, the effect
returns early without committing.  When the item is found, `t`/`k`/`v` are
overwritten from `item.tkv.split('/', 3)` (a missing part is JavaScript
`undefined`, embedded as the empty string — the claims below only use
three-part keys), `id` is deleted, the hash becomes `'#' + itemID` and the
search is rebuilt with `qsString`. -/
def inboundSync (loc : Loc) (indexLoading : Bool) (index : NsiIndex α)
    (st : SyncState) : Option (SyncState × Bool) :=
  match stringQs loc.search with
  | none => none
  | some newParams0 =>
    match jsGet newParams0 ("id".data) with
    | some itemID =>
      if itemID.isEmpty then inboundCommit st loc.hash loc.search
      else if indexLoading then some (st, false)
      else
        match jsGet index.id itemID with
        | some item =>
          let parts := (List.splitOn '/' item.tkv).take 3
          let np := jsDelete
            (jsInsert
              (jsInsert
                (jsInsert newParams0 ("t".data) (parts.getD 0 []))
                ("k".data) (parts.getD 1 []))
              ("v".data) (parts.getD 2 []))
            ("id".data)
          inboundCommit st ('#' :: itemID) (qsString np)
        | none => inboundCommit st loc.hash loc.search
    | none => inboundCommit st loc.hash loc.search

/-- The fixed key order `['t', 'k', 'v', 'id', 'tt', 'cc', 'inc']` of the
outbound effect. -/
def paramKeys : List Str :=
  [("t".data), ("k".data), ("v".data), ("id".data), ("tt".data), ("cc".data),
    ("inc".data)]

/-- The parameter-ordering loop of the outbound effect: walk `paramKeys`,
copy a key's value when truthy, and default `t` to `'brands'`. -/
def orderedParams (params : QueryParams) : QueryParams :=
  paramKeys.foldl
    (fun np k =>
      match jsGet params k with
      | some v =>
        if !v.isEmpty then jsInsert np k v
        else if k = ("t".data) then jsInsert np k ("brands".data) else np
      | none =>
        if k = ("t".data) then jsInsert np k ("brands".data) else np)
    []

/-- The outbound effect (params/hash → location) of `AppContextProvider`,
returning the `navigate` target when a replace navigation happens and `none`
otherwise.  The source guard is
`!_didChangeLocation && newSearch !== location.search || newHash !==
location.hash`; `&&` binds tighter than `||`, which the parenthesization
below mirrors. -/
def outboundSync (loc : Loc) (indexLoading didChangeLocation : Bool)
    (st : SyncState) : Option Str :=
  if indexLoading then none
  else
    let newSearch := '?' :: qsString (orderedParams st.params)
    let newHash := st.hash
    if (didChangeLocation = false ∧ newSearch ≠ loc.search) ∨ newHash ≠ loc.hash then
      some (loc.pathname ++ newSearch ++ newHash)
    else none

/-! ## The three loaders -/

/-- A loader failure: the fetch rejected, or the body was not JSON. -/
inductive FetchError where
  | network
  | badJson
  deriving DecidableEq

/-- The `useFetch` state `(data, loading)`: `useState([])` is embedded as `none`
(the empty initial value) and a successful parse as `some json`. -/
def useFetchInit : Option β × Bool := (none, true)

/-- One run of `useFetch`'s `fetchUrl`: on success, `setData(json)` then
`setLoading(false)`; a rejection skips both state updates. -/
def useFetchRun (st : Option β × Bool) (result : Except FetchError β) :
    Option β × Bool :=
  match result with
  | .ok json => (some json, false)
  | .error _ => st

/-- The `useNsi` state: `useState` of an empty object, embedded as `none`. -/
def useNsiInit : Option (NsiIndex α) × Bool := (none, true)

/-- One run of `useNsi`'s `fetchUrl`: on success, build the cache, then
`setData(index)` and `setLoading(false)`. -/
def useNsiRun (st : Option (NsiIndex α) × Bool)
    (result : Except FetchError (JNsi α)) : Option (NsiIndex α) × Bool :=
  match result with
  | .ok json => (some (buildIndex json), false)
  | .error _ => st

/-- The fetched taginfo body: its `tags` array. -/
structure JTaginfo where
  tags : List Tag
  deriving DecidableEq

/-- The `useTaginfo` state: `useState` of an empty object, embedded as `none`. -/
def useTaginfoInit : Option (List (Str × Str)) × Bool := (none, true)

/-- One run of `useTaginfo`'s `fetchUrl`: on success, build the icon table,
then `setData(icons)` and `setLoading(false)`. -/
def useTaginfoRun (st : Option (List (Str × Str)) × Bool)
    (result : Except FetchError JTaginfo) : Option (List (Str × Str)) × Bool :=
  match result with
  | .ok json => (some (buildIcons json.tags), false)
  | .error _ => st

example :
    buildIcons [⟨some ("shop".data), none, some ("u1".data)⟩,
      ⟨some ("shop".data), some ("bakery".data), some ("u2".data)⟩,
      ⟨some ("x".data), none, none⟩] =
    [(("shop".data), ("u1".data)), (("shop/bakery".data), ("u2".data))] := by
  decide

example :
    qsString (orderedParams [(("k".data), ("cafe".data)), (("v".data), ("Foo".data))]) =
    ("t=brands&k=cafe&v=Foo".data) := by decide

example :
    outboundSync ⟨("/".data), ("?t=brands".data), []⟩ false true ⟨[], ("#a".data)⟩ =
    some ("/?t=brands#a".data) := by decide

/-! ## Association-list lemmas -/

theorem jsGet_cons_self (k : Str) (v : β) (t : List (Str × β)) :
    jsGet ((k, v) :: t) k = some v := by
  simp [jsGet]

theorem jsGet_cons_ne (k₁ k : Str) (v₁ : β) (t : List (Str × β)) (h : k₁ ≠ k) :
    jsGet ((k₁, v₁) :: t) k = jsGet t k := by
  simp [jsGet, h]

theorem jsInsert_cons_self (k : Str) (v v₁ : β) (t : List (Str × β)) :
    jsInsert ((k, v₁) :: t) k v = (k, v) :: t := by
  simp [jsInsert]

theorem jsInsert_cons_ne (k₁ k : Str) (v v₁ : β) (t : List (Str × β))
    (h : k₁ ≠ k) : jsInsert ((k₁, v₁) :: t) k v = (k₁, v₁) :: jsInsert t k v := by
  simp [jsInsert, h]

theorem jsDelete_cons_self (k : Str) (v₁ : β) (t : List (Str × β)) :
    jsDelete ((k, v₁) :: t) k = jsDelete t k := by
  simp [jsDelete]

theorem jsDelete_cons_ne (k₁ k : Str) (v₁ : β) (t : List (Str × β))
    (h : k₁ ≠ k) : jsDelete ((k₁, v₁) :: t) k = (k₁, v₁) :: jsDelete t k := by
  simp [jsDelete, h]

theorem jsGet_jsInsert (m : List (Str × β)) (k k' : Str) (v : β) :
    jsGet (jsInsert m k v) k' = if k = k' then some v else jsGet m k' := by
  induction m with
  | nil => by_cases h : k = k' <;> simp [jsInsert, jsGet, h]
  | cons p t ih =>
    obtain ⟨k₁, v₁⟩ := p
    by_cases h₁ : k₁ = k
    · subst h₁
      rw [jsInsert_cons_self]
      by_cases h₂ : k₁ = k'
      · subst h₂; simp [jsGet_cons_self]
      · rw [jsGet_cons_ne _ _ _ _ h₂, jsGet_cons_ne _ _ _ _ h₂, if_neg h₂]
    · rw [jsInsert_cons_ne _ _ _ _ _ h₁]
      by_cases h₃ : k₁ = k'
      · subst h₃
        rw [jsGet_cons_self, jsGet_cons_self, if_neg (fun h' => h₁ h'.symm)]
      · rw [jsGet_cons_ne _ _ _ _ h₃, jsGet_cons_ne _ _ _ _ h₃, ih]

theorem mem_keys_jsInsert (m : List (Str × β)) (k k' : Str) (v : β) :
    k' ∈ (jsInsert m k v).map Prod.fst ↔ k' = k ∨ k' ∈ m.map Prod.fst := by
  induction m with
  | nil => simp [jsInsert]
  | cons p t ih =>
    obtain ⟨k₁, v₁⟩ := p
    by_cases h₁ : k₁ = k
    · subst h₁
      rw [jsInsert_cons_self]
      simp only [List.map_cons, List.mem_cons]
      tauto
    · rw [jsInsert_cons_ne _ _ _ _ _ h₁]
      simp only [List.map_cons, List.mem_cons, ih]
      tauto

theorem nodupKeys_jsInsert (m : List (Str × β)) (k : Str) (v : β)
    (h : (m.map Prod.fst).Nodup) : ((jsInsert m k v).map Prod.fst).Nodup := by
  induction m with
  | nil => simp [jsInsert]
  | cons p t ih =>
    obtain ⟨k₁, v₁⟩ := p
    simp only [List.map_cons, List.nodup_cons] at h
    by_cases h₁ : k₁ = k
    · subst h₁
      rw [jsInsert_cons_self]
      simp only [List.map_cons, List.nodup_cons]
      exact h
    · rw [jsInsert_cons_ne _ _ _ _ _ h₁]
      simp only [List.map_cons, List.nodup_cons]
      refine ⟨fun hc => ?_, ih h.2⟩
      rcases (mem_keys_jsInsert t k k₁ v).1 hc with h' | h'
      · exact h₁ h'
      · exact h.1 h'

theorem mem_jsInsert (m : List (Str × β)) (k : Str) (v : β) (p : Str × β)
    (h : p ∈ jsInsert m k v) : p = (k, v) ∨ p ∈ m := by
  induction m with
  | nil => simpa [jsInsert] using h
  | cons q t ih =>
    obtain ⟨k₁, v₁⟩ := q
    by_cases h₁ : k₁ = k
    · subst h₁
      rw [jsInsert_cons_self] at h
      rcases List.mem_cons.1 h with h' | h'
      · exact Or.inl h'
      · exact Or.inr (List.mem_cons_of_mem _ h')
    · rw [jsInsert_cons_ne _ _ _ _ _ h₁] at h
      rcases List.mem_cons.1 h with h' | h'
      · exact Or.inr (h' ▸ List.mem_cons_self _ _)
      · rcases ih h' with h'' | h''
        · exact Or.inl h''
        · exact Or.inr (List.mem_cons_of_mem _ h'')

theorem jsInsert_of_not_mem (m : List (Str × β)) (k : Str) (v : β)
    (h : ¬ k ∈ m.map Prod.fst) : jsInsert m k v = m ++ [(k, v)] := by
  induction m with
  | nil => simp [jsInsert]
  | cons p t ih =>
    obtain ⟨k₁, v₁⟩ := p
    simp only [List.map_cons, List.mem_cons, not_or] at h
    have h₁ : k₁ ≠ k := fun h' => h.1 h'.symm
    rw [jsInsert_cons_ne _ _ _ _ _ h₁, ih h.2, List.cons_append]

theorem jsGet_jsDelete (m : List (Str × β)) (k k' : Str) :
    jsGet (jsDelete m k) k' = if k = k' then none else jsGet m k' := by
  induction m with
  | nil => by_cases h : k = k' <;> simp [jsDelete, jsGet, h]
  | cons p t ih =>
    obtain ⟨k₁, v₁⟩ := p
    by_cases h₁ : k₁ = k
    · subst h₁
      rw [jsDelete_cons_self, ih]
      by_cases h₂ : k₁ = k'
      · subst h₂; simp
      · rw [if_neg h₂, if_neg h₂, jsGet_cons_ne _ _ _ _ h₂]
    · rw [jsDelete_cons_ne _ _ _ _ h₁]
      by_cases h₃ : k₁ = k'
      · subst h₃
        rw [jsGet_cons_self, jsGet_cons_self, if_neg (fun h' => h₁ h'.symm)]
      · rw [jsGet_cons_ne _ _ _ _ h₃, jsGet_cons_ne _ _ _ _ h₃, ih]

theorem mem_keys_jsDelete (m : List (Str × β)) (k k' : Str)
    (h : k' ∈ (jsDelete m k).map Prod.fst) : k' ∈ m.map Prod.fst := by
  induction m with
  | nil => simp [jsDelete] at h
  | cons p t ih =>
    obtain ⟨k₁, v₁⟩ := p
    by_cases h₁ : k₁ = k
    · subst h₁
      rw [jsDelete_cons_self] at h
      exact List.mem_cons_of_mem _ (ih h)
    · rw [jsDelete_cons_ne _ _ _ _ h₁] at h
      simp only [List.map_cons, List.mem_cons] at h ⊢
      tauto

theorem nodupKeys_jsDelete (m : List (Str × β)) (k : Str)
    (h : (m.map Prod.fst).Nodup) : ((jsDelete m k).map Prod.fst).Nodup := by
  induction m with
  | nil => simp [jsDelete]
  | cons p t ih =>
    obtain ⟨k₁, v₁⟩ := p
    simp only [List.map_cons, List.nodup_cons] at h
    by_cases h₁ : k₁ = k
    · subst h₁
      rw [jsDelete_cons_self]
      exact ih h.2
    · rw [jsDelete_cons_ne _ _ _ _ h₁]
      simp only [List.map_cons, List.nodup_cons]
      exact ⟨fun hc => h.1 (mem_keys_jsDelete t k k₁ hc), ih h.2⟩

theorem jsGet_eq_none_iff (m : List (Str × β)) (k : Str) :
    jsGet m k = none ↔ ¬ k ∈ m.map Prod.fst := by
  induction m with
  | nil => simp [jsGet]
  | cons p t ih =>
    obtain ⟨k₁, v₁⟩ := p
    by_cases h₁ : k₁ = k
    · subst h₁
      rw [jsGet_cons_self]
      simp only [List.map_cons, List.mem_cons]
      exact iff_of_false (by simp) (fun hc => hc (by left; trivial))
    · rw [jsGet_cons_ne _ _ _ _ h₁]
      simp only [List.map_cons, List.mem_cons, ih]
      have hne : ¬ k = k₁ := fun h' => h₁ h'.symm
      tauto

theorem jsGet_mem (m : List (Str × β)) (k : Str) (v : β)
    (h : jsGet m k = some v) : (k, v) ∈ m := by
  induction m with
  | nil => simp [jsGet] at h
  | cons p t ih =>
    obtain ⟨k₁, v₁⟩ := p
    by_cases h₁ : k₁ = k
    · rw [h₁, jsGet_cons_self] at h
      have hv := Option.some.inj h
      exact List.mem_cons.2 (Or.inl (by rw [h₁, hv]))
    · rw [jsGet_cons_ne _ _ _ _ h₁] at h
      exact List.mem_cons_of_mem _ (ih h)

theorem foldl_jsInsert_eq_append (ps : List (Str × β)) (init : List (Str × β))
    (h : ∀ k ∈ ps.map Prod.fst, ¬ k ∈ init.map Prod.fst)
    (hnd : (ps.map Prod.fst).Nodup) :
    ps.foldl (fun m p => jsInsert m p.1 p.2) init = init ++ ps := by
  induction ps generalizing init with
  | nil => simp
  | cons p t ih =>
    obtain ⟨k, v⟩ := p
    simp only [List.map_cons, List.nodup_cons] at hnd
    have hfresh : ¬ k ∈ init.map Prod.fst :=
      h k (by simp only [List.map_cons, List.mem_cons]; left; trivial)
    have hrest : ∀ k' ∈ t.map Prod.fst, ¬ k' ∈ (init ++ [(k, v)]).map Prod.fst := by
      intro k' hk'
      simp only [List.map_append, List.mem_append, List.map_cons, List.map_nil,
        List.mem_singleton, not_or]
      refine ⟨h k' (by simp only [List.map_cons, List.mem_cons]; exact Or.inr hk'), ?_⟩
      exact fun h' => hnd.1 (h' ▸ hk')
    simp only [List.foldl_cons]
    rw [jsInsert_of_not_mem init k v hfresh, ih (init ++ [(k, v)]) hrest hnd.2,
      List.append_assoc]
    rfl

/-! ## Codec lemmas: percent-decoding inverts percent-encoding -/

theorem char_toNat_valid (c : Char) :
    c.toNat < 0xD800 ∨ (0xDFFF < c.toNat ∧ c.toNat < 0x110000) := by
  rcases c.valid with h | h
  · left
    simpa [Char.toNat, UInt32.lt_def, BitVec.lt_def] using h
  · right
    obtain ⟨h1, h2⟩ := h
    constructor
    · simpa [Char.toNat, UInt32.lt_def, BitVec.lt_def] using h1
    · simpa [Char.toNat, UInt32.lt_def, BitVec.lt_def] using h2

theorem hexVal_hexDigitChar (n : Nat) (h : n < 16) :
    hexVal (hexDigitChar n) = some n := by
  interval_cases n <;> decide

theorem hexByte_hexDigits (b : Nat) (h : b < 256) :
    hexByte (hexDigitChar (b / 16)) (hexDigitChar (b % 16)) = some b := by
  rw [hexByte, hexVal_hexDigitChar (b / 16) (by omega), hexVal_hexDigitChar (b % 16) (by omega)]
  simp only []
  congr 1
  omega

theorem readEsc_escape (b : Nat) (h : b < 256) (rest : Str) :
    readEsc ('%' :: hexDigitChar (b / 16) :: hexDigitChar (b % 16) :: rest) =
      some (b, rest) := by
  rw [readEsc, if_pos rfl, hexByte_hexDigits b h]
  rfl

theorem isUnreserved_ne_pct (c : Char) (h : isUnreserved c = true) : ¬ c = '%' := by
  intro hc
  subst hc
  simp [isUnreserved] at h

theorem decode_encChar (fuel : Nat) (c : Char) (rest : Str) :
    decodeAux (fuel + 1) (encChar c ++ rest) =
      (decodeAux fuel rest).map (fun r => c :: r) := by
  by_cases hu : isUnreserved c = true
  · rw [encChar, if_pos hu]
    rw [List.cons_append, List.nil_append, decodeAux.eq_3,
      if_neg (isUnreserved_ne_pct c hu)]
  · have hval := char_toNat_valid c
    rw [encChar, if_neg hu]
    by_cases h1 : c.toNat < 0x80
    · rw [utf8Bytes, if_pos h1]
      simp only [List.foldr_cons, List.foldr_nil, List.cons_append, List.nil_append]
      rw [decodeAux.eq_3, if_pos rfl, readEsc_escape c.toNat (by omega)]
      simp only []
      rw [if_pos h1, Char.ofNat_toNat]
    · by_cases h2 : c.toNat < 0x800
      · rw [utf8Bytes, if_neg h1, if_pos h2]
        simp only [List.foldr_cons, List.foldr_nil, List.cons_append, List.nil_append]
        rw [decodeAux.eq_3, if_pos rfl,
          readEsc_escape (0xC0 + c.toNat / 64) (by omega)]
        simp only []
        rw [if_neg (by omega), if_pos (by omega),
          readEsc_escape (0x80 + c.toNat % 64) (by omega)]
        simp only []
        rw [if_pos (by omega)]
        have : (0xC0 + c.toNat / 64 - 0xC0) * 64 + (0x80 + c.toNat % 64 - 0x80) = c.toNat := by
          omega
        rw [this, Char.ofNat_toNat]
      · by_cases h3 : c.toNat < 0x10000
        · rw [utf8Bytes, if_neg h1, if_neg h2, if_pos h3]
          simp only [List.foldr_cons, List.foldr_nil, List.cons_append, List.nil_append]
          rw [decodeAux.eq_3, if_pos rfl,
            readEsc_escape (0xE0 + c.toNat / 4096) (by omega)]
          simp only []
          rw [if_neg (by omega), if_neg (by omega), if_pos (by omega),
            readEsc_escape (0x80 + c.toNat / 64 % 64) (by omega)]
          simp only []
          rw [readEsc_escape (0x80 + c.toNat % 64) (by omega)]
          simp only []
          rw [if_pos (by constructor <;> omega), if_pos (by constructor <;> omega)]
          have : (0xE0 + c.toNat / 4096 - 0xE0) * 4096 + (0x80 + c.toNat / 64 % 64 - 0x80) * 64 +
              (0x80 + c.toNat % 64 - 0x80) = c.toNat := by omega
          rw [this, Char.ofNat_toNat]
        · rw [utf8Bytes, if_neg h1, if_neg h2, if_neg h3]
          simp only [List.foldr_cons, List.foldr_nil, List.cons_append, List.nil_append]
          rw [decodeAux.eq_3, if_pos rfl,
            readEsc_escape (0xF0 + c.toNat / 262144) (by omega)]
          simp only []
          rw [if_neg (by omega), if_neg (by omega), if_neg (by omega), if_pos (by omega),
            readEsc_escape (0x80 + c.toNat / 4096 % 64) (by omega)]
          simp only []
          rw [readEsc_escape (0x80 + c.toNat / 64 % 64) (by omega)]
          simp only []
          rw [readEsc_escape (0x80 + c.toNat % 64) (by omega)]
          simp only []
          rw [if_pos (by refine ⟨⟨by omega, by omega⟩, ⟨by omega, by omega⟩, by omega, by omega⟩),
            if_pos (by constructor <;> omega)]
          have : (0xF0 + c.toNat / 262144 - 0xF0) * 262144 + (0x80 + c.toNat / 4096 % 64 - 0x80) * 4096 +
              (0x80 + c.toNat / 64 % 64 - 0x80) * 64 + (0x80 + c.toNat % 64 - 0x80) = c.toNat := by
            omega
          rw [this, Char.ofNat_toNat]


theorem encChar_length_pos (c : Char) : 0 < (encChar c).length := by
  rw [encChar]
  split_ifs with hu
  · simp
  · rw [utf8Bytes]
    split_ifs <;> simp

theorem length_le_encode (s : Str) : s.length ≤ (encodeURIComponent s).length := by
  induction s with
  | nil => simp [encodeURIComponent]
  | cons c t ih =>
    have h : encodeURIComponent (c :: t) = encChar c ++ encodeURIComponent t := rfl
    rw [h, List.length_cons, List.length_append]
    have := encChar_length_pos c
    omega

theorem decode_encode_append (s : Str) (fuel : Nat) (r : Str) :
    decodeAux (s.length + fuel) (encodeURIComponent s ++ r) =
      (decodeAux fuel r).map (fun x => s ++ x) := by
  induction s with
  | nil =>
    simp only [encodeURIComponent, List.foldr_nil, List.length_nil, Nat.zero_add,
      List.nil_append]
    cases decodeAux fuel r <;> simp
  | cons c t ih =>
    have h : encodeURIComponent (c :: t) = encChar c ++ encodeURIComponent t := rfl
    rw [h, List.append_assoc, List.length_cons]
    have h2 : t.length + 1 + fuel = (t.length + fuel) + 1 := by omega
    rw [h2, decode_encChar, ih]
    cases decodeAux fuel r <;> simp

theorem decode_encode (s : Str) :
    decodeURIComponent (encodeURIComponent s) = some s := by
  rw [decodeURIComponent]
  have hlen := length_le_encode s
  have h : (encodeURIComponent s).length =
      s.length + ((encodeURIComponent s).length - s.length) := by omega
  rw [h]
  have h2 := decode_encode_append s ((encodeURIComponent s).length - s.length) []
  rw [List.append_nil] at h2
  rw [h2, decodeAux.eq_1]
  simp

theorem encode_injective (a b : Str) (h : encodeURIComponent a = encodeURIComponent b) :
    a = b := by
  have ha := decode_encode a
  rw [h, decode_encode b] at ha
  exact (Option.some.inj ha).symm

theorem isUnreserved_hexDigitChar (n : Nat) (h : n < 16) :
    isUnreserved (hexDigitChar n) = true := by
  interval_cases n <;> decide

theorem mem_utf8Bytes_lt (n b : Nat) (hn : n < 0x110000) (hb : b ∈ utf8Bytes n) :
    b < 256 := by
  rw [utf8Bytes] at hb
  split_ifs at hb <;>
    simp only [List.mem_cons, List.mem_singleton, List.not_mem_nil, or_false] at hb <;>
    omega

theorem mem_escape_foldr (l : List Nat) (x : Char)
    (hx : x ∈ l.foldr
      (fun b acc => '%' :: hexDigitChar (b / 16) :: hexDigitChar (b % 16) :: acc) []) :
    x = '%' ∨ ∃ b ∈ l, x = hexDigitChar (b / 16) ∨ x = hexDigitChar (b % 16) := by
  induction l with
  | nil => simp at hx
  | cons b t ih =>
    simp only [List.foldr_cons, List.mem_cons] at hx
    rcases hx with h | h | h | h
    · exact Or.inl h
    · exact Or.inr ⟨b, by simp, Or.inl h⟩
    · exact Or.inr ⟨b, by simp, Or.inr h⟩
    · rcases ih h with h' | ⟨b', hb', h'⟩
      · exact Or.inl h'
      · exact Or.inr ⟨b', List.mem_cons_of_mem _ hb', h'⟩

theorem mem_encChar (c x : Char) (hx : x ∈ encChar c) :
    isUnreserved x = true ∨ x = '%' := by
  rw [encChar] at hx
  split_ifs at hx with hu
  · rcases List.mem_singleton.1 hx with rfl
    exact Or.inl hu
  · rcases mem_escape_foldr _ x hx with h | ⟨b, hb, h⟩
    · exact Or.inr h
    · have hv := char_toNat_valid c
      have hblt : b < 256 := mem_utf8Bytes_lt c.toNat b (by omega) hb
      rcases h with rfl | rfl
      · exact Or.inl (isUnreserved_hexDigitChar _ (by omega))
      · exact Or.inl (isUnreserved_hexDigitChar _ (by omega))

theorem mem_encode (s : Str) (x : Char) (hx : x ∈ encodeURIComponent s) :
    isUnreserved x = true ∨ x = '%' := by
  induction s with
  | nil => simp [encodeURIComponent] at hx
  | cons c t ih =>
    have h : encodeURIComponent (c :: t) = encChar c ++ encodeURIComponent t := rfl
    rw [h] at hx
    rcases List.mem_append.1 hx with h' | h'
    · exact mem_encChar c x h'
    · exact ih h'

theorem not_mem_encode (x : Char) (s : Str) (h1 : isUnreserved x = false)
    (h2 : ¬ x = '%') : ¬ x ∈ encodeURIComponent s := by
  intro hx
  rcases mem_encode s x hx with h | h
  · rw [h1] at h
    exact Bool.false_ne_true h
  · exact h2 h


/-! ## `stringQs` is a left inverse of `qsString` up to key encoding -/

theorem intercalate_single (sep a : Str) : List.intercalate sep [a] = a := by
  simp [List.intercalate]

theorem intercalate_cons_cons (sep a b : Str) (l : List Str) :
    List.intercalate sep (a :: b :: l) = a ++ sep ++ List.intercalate sep (b :: l) := by
  simp [List.intercalate, List.intersperse]

theorem mem_intercalate (sep : Str) (l : List Str) (x : Char)
    (hx : x ∈ List.intercalate sep l) : x ∈ sep ∨ ∃ p ∈ l, x ∈ p := by
  induction l with
  | nil => simp [List.intercalate] at hx
  | cons a t ih =>
    cases t with
    | nil =>
      rw [intercalate_single] at hx
      exact Or.inr ⟨a, by simp, hx⟩
    | cons b t2 =>
      rw [intercalate_cons_cons] at hx
      rcases List.mem_append.1 hx with h | h
      · rcases List.mem_append.1 h with h' | h'
        · exact Or.inr ⟨a, by simp, h'⟩
        · exact Or.inl h'
      · rcases ih h with h' | ⟨p, hp, hxp⟩
        · exact Or.inl h'
        · exact Or.inr ⟨p, List.mem_cons_of_mem _ hp, hxp⟩

theorem mem_qsString (m : QueryParams) (x : Char) (hx : x ∈ qsString m) :
    x = '&' ∨ x = '=' ∨ isUnreserved x = true ∨ x = '%' := by
  rcases mem_intercalate _ _ _ hx with h | ⟨p, hp, hxp⟩
  · exact Or.inl (List.mem_singleton.1 h)
  · rcases List.mem_map.1 hp with ⟨q, _, rfl⟩
    rcases List.mem_append.1 hxp with h' | h'
    · rcases mem_encode _ _ h' with h'' | h''
      · exact Or.inr (Or.inr (Or.inl h''))
      · exact Or.inr (Or.inr (Or.inr h''))
    · rcases List.mem_cons.1 h' with h'' | h''
      · exact Or.inr (Or.inl h'')
      · rcases mem_encode _ _ h'' with h3 | h3
        · exact Or.inr (Or.inr (Or.inl h3))
        · exact Or.inr (Or.inr (Or.inr h3))

theorem stripLead_qsString (m : QueryParams) : stripLead (qsString m) = qsString m := by
  cases hq : qsString m with
  | nil => rfl
  | cons c t =>
    have hc : c ∈ qsString m := by rw [hq]; exact List.mem_cons_self _ _
    have := mem_qsString m c hc
    have h1 : ¬ c = '?' := by
      rintro rfl
      rcases this with h | h | h | h <;> revert h <;> decide
    have h2 : ¬ c = '#' := by
      rintro rfl
      rcases this with h | h | h | h <;> revert h <;> decide
    rw [stripLead]
    simp [h1, h2]

theorem amp_not_mem_pair (k v : Str) :
    ¬ '&' ∈ encodeURIComponent k ++ '=' :: encodeURIComponent v := by
  intro h
  rcases List.mem_append.1 h with h' | h'
  · exact not_mem_encode '&' k (by decide) (by decide) h'
  · rcases List.mem_cons.1 h' with h'' | h''
    · simp at h''
    · exact not_mem_encode '&' v (by decide) (by decide) h''

theorem splitOn_qsString (m : QueryParams) (hm : m ≠ []) :
    List.splitOn '&' (qsString m) =
      m.map (fun p => encodeURIComponent p.1 ++ '=' :: encodeURIComponent p.2) := by
  rw [qsString]
  apply List.splitOn_intercalate
  · intro l hl
    rcases List.mem_map.1 hl with ⟨q, _, rfl⟩
    exact amp_not_mem_pair q.1 q.2
  · simp [hm]

theorem splitOn_pair (k v : Str) :
    List.splitOn '=' (encodeURIComponent k ++ '=' :: encodeURIComponent v) =
      [encodeURIComponent k, encodeURIComponent v] := by
  have h : encodeURIComponent k ++ '=' :: encodeURIComponent v =
      List.intercalate ['='] [encodeURIComponent k, encodeURIComponent v] := by
    rw [intercalate_cons_cons, intercalate_single]
    simp
  rw [h]
  apply List.splitOn_intercalate
  · intro l hl
    rcases List.mem_cons.1 hl with rfl | hl2
    · exact not_mem_encode '=' k (by decide) (by decide)
    · rcases List.mem_cons.1 hl2 with rfl | hl3
      · exact not_mem_encode '=' v (by decide) (by decide)
      · simp at hl3
  · simp

/-- The accumulating step of `stringQs`. -/
def qsStep (obj : QueryParams) (pair : Str) : Option QueryParams :=
  match List.splitOn '=' pair with
  | [k, v] =>
    match decodeURIComponent v with
    | some d => some (jsInsert obj k d)
    | none => none
  | _ => some obj

theorem stringQs_eq_foldlM (s : Str) :
    stringQs s = (List.splitOn '&' (stripLead s)).foldlM qsStep [] := rfl

theorem foldlM_qsStep_pairs (m : QueryParams) (init : QueryParams) :
    (m.map (fun p => encodeURIComponent p.1 ++ '=' :: encodeURIComponent p.2)).foldlM
        qsStep init =
      some (m.foldl (fun obj p => jsInsert obj (encodeURIComponent p.1) p.2) init) := by
  induction m generalizing init with
  | nil => rfl
  | cons p t ih =>
    obtain ⟨k, v⟩ := p
    rw [List.map_cons, List.foldlM_cons]
    rw [show qsStep init (encodeURIComponent k ++ '=' :: encodeURIComponent v) =
        some (jsInsert init (encodeURIComponent k) v) from by
      rw [qsStep, splitOn_pair]
      simp only []
      rw [decode_encode]]
    rw [show (some (jsInsert init (encodeURIComponent k) v) >>= fun init' =>
        (t.map (fun p => encodeURIComponent p.1 ++ '=' :: encodeURIComponent p.2)).foldlM
          qsStep init') =
        (t.map (fun p => encodeURIComponent p.1 ++ '=' :: encodeURIComponent p.2)).foldlM
          qsStep (jsInsert init (encodeURIComponent k) v) from rfl]
    rw [ih, List.foldl_cons]

theorem stringQs_qsString (m : QueryParams)
    (hnd : (m.map (fun p => encodeURIComponent p.1)).Nodup) :
    stringQs (qsString m) =
      some (m.map (fun p => (encodeURIComponent p.1, p.2))) := by
  cases hm : m with
  | nil => decide
  | cons p t =>
    rw [stringQs_eq_foldlM, stripLead_qsString, splitOn_qsString _ (by simp),
      foldlM_qsStep_pairs]
    congr 1
    have hfold : (p :: t).foldl
        (fun obj q => jsInsert obj (encodeURIComponent q.1) q.2) [] =
        ((p :: t).map (fun q => (encodeURIComponent q.1, q.2))).foldl
          (fun obj q => jsInsert obj q.1 q.2) [] := by
      rw [List.foldl_map]
    rw [hfold]
    rw [foldl_jsInsert_eq_append]
    · simp
    · simp
    · rw [hm] at hnd
      simpa [Function.comp] using hnd

theorem foldlM_qsStep_nodup (segs : List Str) (init m : QueryParams)
    (h : segs.foldlM qsStep init = some m)
    (hinit : (init.map Prod.fst).Nodup) : (m.map Prod.fst).Nodup := by
  induction segs generalizing init with
  | nil =>
    simp only [List.foldlM_nil] at h
    exact (Option.some.inj h) ▸ hinit
  | cons seg t ih =>
    rw [List.foldlM_cons] at h
    rcases hstep : qsStep init seg with _ | init'
    · rw [hstep] at h
      exact Option.noConfusion h
    · rw [hstep] at h
      apply ih init' h
      rw [qsStep] at hstep
      split at hstep
      · split at hstep
        · exact (Option.some.inj hstep) ▸ nodupKeys_jsInsert _ _ _ hinit
        · simp at hstep
      · exact (Option.some.inj hstep) ▸ hinit

theorem stringQs_nodupKeys (s : Str) (m : QueryParams)
    (h : stringQs s = some m) : (m.map Prod.fst).Nodup := by
  rw [stringQs_eq_foldlM] at h
  exact foldlM_qsStep_nodup _ _ _ h (by simp)

theorem foldlM_qsStep_mem (segs : List Str) (init m : QueryParams)
    (h : segs.foldlM qsStep init = some m) (k v : Str) (hmem : (k, v) ∈ m) :
    (k, v) ∈ init ∨ ∃ seg ∈ segs, ∃ w, List.splitOn '=' seg = [k, w] ∧
      decodeURIComponent w = some v := by
  induction segs generalizing init with
  | nil =>
    simp only [List.foldlM_nil] at h
    exact Or.inl ((Option.some.inj h) ▸ hmem)
  | cons seg t ih =>
    rw [List.foldlM_cons] at h
    rcases hstep : qsStep init seg with _ | init'
    · rw [hstep] at h
      exact Option.noConfusion h
    · rw [hstep] at h
      rcases ih init' h with h' | ⟨seg', hseg', w, hw, hd⟩
      · rw [qsStep] at hstep
        split at hstep
        · rename_i k' v' hsp
          split at hstep
          · rename_i d hd
            rw [← Option.some.inj hstep] at h'
            rcases mem_jsInsert _ _ _ _ h' with h'' | h''
            · have hk : k = k' := congrArg Prod.fst h''
              have hv : v = d := congrArg Prod.snd h''
              exact Or.inr ⟨seg, List.mem_cons_self _ _, v', by rw [← hk] at hsp; exact hsp,
                by rw [hd, hv]⟩
            · exact Or.inl h''
          · simp at hstep
        · exact Or.inl ((Option.some.inj hstep) ▸ h')
      · exact Or.inr ⟨seg', List.mem_cons_of_mem _ hseg', w, hw, hd⟩

theorem jsGet_map_enc (m : QueryParams) (k : Str) :
    jsGet (m.map (fun p => (encodeURIComponent p.1, p.2))) (encodeURIComponent k) =
      jsGet m k := by
  induction m with
  | nil => rfl
  | cons p t ih =>
    obtain ⟨k₁, v₁⟩ := p
    by_cases h : k₁ = k
    · subst h
      rw [List.map_cons]
      rw [jsGet_cons_self, jsGet_cons_self]
    · rw [List.map_cons,
        jsGet_cons_ne _ _ _ _ (fun hc => h (encode_injective _ _ hc)),
        jsGet_cons_ne _ _ _ _ h, ih]

theorem search_ne_qsString (m : QueryParams) (x : Str) : ¬ '?' :: x = qsString m := by
  intro h
  have hm : '?' ∈ qsString m := by
    rw [← h]
    exact List.mem_cons_self _ _
  rcases mem_qsString m _ hm with h' | h' | h' | h' <;> revert h' <;> decide
/-! ## Name-index lemmas -/

/-- All item records the `useNsi` loop inserts, already annotated, in
iteration order (categories in source order, items in source order). -/
def allTagged (entries : List (Str × JCategory α)) : List (Item α) :=
  entries.foldr
    (fun e acc =>
      (match e.2.items with
       | some its => its.map (tagItem e.1)
       | none => []) ++ acc)
    []

/-- The last item with a given id, in iteration order (written from the
spec's "later items overwrite earlier ones" reading, to be compared with the
index the code builds). -/
def lastWithId (l : List (Item α)) (i : Str) : Option (Item α) :=
  l.foldl (fun acc it => if it.id = i then some it else acc) none

theorem allTagged_cons (e : Str × JCategory α) (rest : List (Str × JCategory α)) :
    allTagged (e :: rest) =
      (match e.2.items with
       | some its => its.map (tagItem e.1)
       | none => []) ++ allTagged rest := rfl

theorem jsGet_foldl_insert_items (l : List (Item α)) (init : List (Str × Item α))
    (i : Str) :
    jsGet (l.foldl (fun m it => jsInsert m it.id it) init) i =
      l.foldl (fun acc it => if it.id = i then some it else acc) (jsGet init i) := by
  induction l generalizing init with
  | nil => rfl
  | cons it t ih =>
    rw [List.foldl_cons, List.foldl_cons, ih, jsGet_jsInsert]

theorem buildAux_id (entries : List (Str × JCategory α))
    (path : List (Str × List (Item α))) (ids : List (Str × Item α)) (i : Str) :
    jsGet (buildAux entries path ids).2 i =
      (allTagged entries).foldl
        (fun acc it => if it.id = i then some it else acc) (jsGet ids i) := by
  induction entries generalizing path ids with
  | nil => rfl
  | cons e rest ih =>
    obtain ⟨tkv, cat⟩ := e
    rcases hits : cat.items with _ | its
    · rw [show buildAux ((tkv, cat) :: rest) path ids = buildAux rest path ids from by
        rw [buildAux, hits]]
      rw [ih, allTagged_cons, hits]
      rw [List.nil_append]
    · rw [show buildAux ((tkv, cat) :: rest) path ids =
          buildAux rest (jsInsert path tkv (its.map (tagItem tkv)))
            ((its.map (tagItem tkv)).foldl (fun m it => jsInsert m it.id it) ids) from by
        rw [buildAux, hits]]
      rw [ih, jsGet_foldl_insert_items]
      rw [show allTagged ((tkv, cat) :: rest) =
          its.map (tagItem tkv) ++ allTagged rest from by
        rw [allTagged_cons, hits]]
      rw [List.foldl_append]

theorem buildAux_path_fresh (entries : List (Str × JCategory α))
    (path : List (Str × List (Item α))) (ids : List (Str × Item α)) (t : Str)
    (hf : ¬ t ∈ entries.map Prod.fst) :
    jsGet (buildAux entries path ids).1 t = jsGet path t := by
  induction entries generalizing path ids with
  | nil => rfl
  | cons e rest ih =>
    obtain ⟨tkv, cat⟩ := e
    simp only [List.map_cons, List.mem_cons, not_or] at hf
    rcases hits : cat.items with _ | its
    · rw [show buildAux ((tkv, cat) :: rest) path ids = buildAux rest path ids from by
        rw [buildAux, hits]]
      exact ih _ _ hf.2
    · rw [show buildAux ((tkv, cat) :: rest) path ids =
          buildAux rest (jsInsert path tkv (its.map (tagItem tkv)))
            ((its.map (tagItem tkv)).foldl (fun m it => jsInsert m it.id it) ids) from by
        rw [buildAux, hits]]
      rw [ih _ _ hf.2, jsGet_jsInsert, if_neg (fun h => hf.1 h.symm)]

theorem buildAux_path_of_mem (entries : List (Str × JCategory α))
    (path : List (Str × List (Item α))) (ids : List (Str × Item α))
    (hnd : (entries.map Prod.fst).Nodup) (t : Str) (cat : JCategory α)
    (hmem : (t, cat) ∈ entries) :
    jsGet (buildAux entries path ids).1 t =
      match cat.items with
      | some its => some (its.map (tagItem t))
      | none => jsGet path t := by
  induction entries generalizing path ids with
  | nil => simp at hmem
  | cons e rest ih =>
    obtain ⟨tkv, c₁⟩ := e
    simp only [List.map_cons, List.nodup_cons] at hnd
    rcases List.mem_cons.1 hmem with hh | hh
    · have htkv : tkv = t := (congrArg Prod.fst hh).symm
      have hcat : c₁ = cat := congrArg Prod.snd hh.symm
      subst htkv
      subst hcat
      rcases hits : c₁.items with _ | its
      · rw [show buildAux ((tkv, c₁) :: rest) path ids = buildAux rest path ids from by
          rw [buildAux, hits]]
        rw [buildAux_path_fresh _ _ _ _ hnd.1]
      · rw [show buildAux ((tkv, c₁) :: rest) path ids =
            buildAux rest (jsInsert path tkv (its.map (tagItem tkv)))
              ((its.map (tagItem tkv)).foldl (fun m it => jsInsert m it.id it) ids) from by
          rw [buildAux, hits]]
        rw [buildAux_path_fresh _ _ _ _ hnd.1, jsGet_jsInsert, if_pos rfl]
    · have ht : t ∈ rest.map Prod.fst :=
        List.mem_map.2 ⟨(t, cat), hh, rfl⟩
      have htkv : ¬ tkv = t := fun h => hnd.1 (h ▸ ht)
      rcases hits : c₁.items with _ | its
      · rw [show buildAux ((tkv, c₁) :: rest) path ids = buildAux rest path ids from by
          rw [buildAux, hits]]
        exact ih _ _ hnd.2 hh
      · rw [show buildAux ((tkv, c₁) :: rest) path ids =
            buildAux rest (jsInsert path tkv (its.map (tagItem tkv)))
              ((its.map (tagItem tkv)).foldl (fun m it => jsInsert m it.id it) ids) from by
          rw [buildAux, hits]]
        rw [ih _ _ hnd.2 hh]
        rcases cat.items with _ | its2
        · rw [jsGet_jsInsert, if_neg htkv]
        · rfl

theorem path_fold_cases (entries : List (Str × JCategory α))
    (init : Option (List (Item α))) (t : Str) (l : List (Item α))
    (h : entries.foldl
        (fun acc e =>
          match e.2.items with
          | some its => if e.1 = t then some (its.map (tagItem e.1)) else acc
          | none => acc) init = some l) :
    (∃ e ∈ entries, ∃ its, e.2.items = some its ∧ e.1 = t ∧
      l = its.map (tagItem t)) ∨ init = some l := by
  induction entries generalizing init with
  | nil => exact Or.inr h
  | cons e rest ih =>
    rw [List.foldl_cons] at h
    rcases ih _ h with h' | h'
    · rcases h' with ⟨e', he', its, h1, h2, h3⟩
      exact Or.inl ⟨e', List.mem_cons_of_mem _ he', its, h1, h2, h3⟩
    · rcases hits : e.2.items with _ | its
      · rw [hits] at h'
        exact Or.inr h'
      · rw [hits] at h'
        simp only [] at h'
        by_cases ht : e.1 = t
        · rw [if_pos ht] at h'
          refine Or.inl ⟨e, List.mem_cons_self _ _, its, hits, ht, ?_⟩
          rw [← ht]
          exact (Option.some.inj h').symm
        · rw [if_neg ht] at h'
          exact Or.inr h'

theorem buildAux_path_spec (entries : List (Str × JCategory α))
    (path : List (Str × List (Item α))) (ids : List (Str × Item α)) (t : Str) :
    jsGet (buildAux entries path ids).1 t =
      entries.foldl
        (fun acc e =>
          match e.2.items with
          | some its => if e.1 = t then some (its.map (tagItem e.1)) else acc
          | none => acc) (jsGet path t) := by
  induction entries generalizing path ids with
  | nil => rfl
  | cons e rest ih =>
    obtain ⟨tkv, cat⟩ := e
    rcases hits : cat.items with _ | its
    · rw [show buildAux ((tkv, cat) :: rest) path ids = buildAux rest path ids from by
        rw [buildAux, hits]]
      rw [ih, List.foldl_cons, hits]
    · rw [show buildAux ((tkv, cat) :: rest) path ids =
          buildAux rest (jsInsert path tkv (its.map (tagItem tkv)))
            ((its.map (tagItem tkv)).foldl (fun m it => jsInsert m it.id it) ids) from by
        rw [buildAux, hits]]
      rw [ih, List.foldl_cons, hits, jsGet_jsInsert]

theorem buildAux_path_cases (entries : List (Str × JCategory α)) (t : Str)
    (l : List (Item α))
    (h : jsGet (buildAux entries [] []).1 t = some l) :
    ∃ e ∈ entries, ∃ its, e.2.items = some its ∧ e.1 = t ∧
      l = its.map (tagItem t) := by
  rw [buildAux_path_spec] at h
  rcases path_fold_cases entries _ t l h with h' | h'
  · exact h'
  · exact absurd h' (by simp [jsGet])

theorem foldl_last_mem (l : List (Item α)) (init : Option (Item α)) (i : Str)
    (it : Item α)
    (h : l.foldl (fun acc x => if x.id = i then some x else acc) init = some it) :
    (it ∈ l ∧ it.id = i) ∨ init = some it := by
  induction l generalizing init with
  | nil => exact Or.inr h
  | cons x t ih =>
    rw [List.foldl_cons] at h
    rcases ih _ h with ⟨hm, hid⟩ | h'
    · exact Or.inl ⟨List.mem_cons_of_mem _ hm, hid⟩
    · by_cases hx : x.id = i
      · rw [if_pos hx] at h'
        rcases Option.some.inj h' with rfl
        exact Or.inl ⟨List.mem_cons_self _ _, hx⟩
      · rw [if_neg hx] at h'
        exact Or.inr h'

theorem lastWithId_mem (l : List (Item α)) (i : Str) (it : Item α)
    (h : lastWithId l i = some it) : it ∈ l ∧ it.id = i := by
  rcases foldl_last_mem l none i it h with h' | h'
  · exact h'
  · exact Option.noConfusion h'

theorem mem_allTagged (entries : List (Str × JCategory α)) (it : Item α)
    (h : it ∈ allTagged entries) :
    ∃ e ∈ entries, ∃ its, e.2.items = some its ∧ it ∈ its.map (tagItem e.1) := by
  induction entries with
  | nil => simp [allTagged] at h
  | cons e rest ih =>
    rw [allTagged_cons] at h
    rcases List.mem_append.1 h with h' | h'
    · rcases hits : e.2.items with _ | its
      · rw [hits] at h'
        simp at h'
      · rw [hits] at h'
        exact ⟨e, List.mem_cons_self _ _, its, hits, h'⟩
    · rcases ih h' with ⟨e', he', its, h1, h2⟩
      exact ⟨e', List.mem_cons_of_mem _ he', its, h1, h2⟩

theorem tagged_tkv (t : Str) (its : List (JItem α)) (it : Item α)
    (h : it ∈ its.map (tagItem t)) : it.tkv = t := by
  rcases List.mem_map.1 h with ⟨x, _, rfl⟩
  rfl

theorem buildIndex_id_lookup (json : JNsi α) (i : Str) :
    jsGet (buildIndex json).id i = lastWithId (allTagged json.nsi) i :=
  buildAux_id json.nsi [] [] i

theorem buildIndex_path_mem_tkv (json : JNsi α) (t : Str) (l : List (Item α))
    (h : jsGet (buildIndex json).path t = some l) : ∀ it ∈ l, it.tkv = t := by
  rcases buildAux_path_cases json.nsi t l h with ⟨e, _, its, _, _, rfl⟩
  intro it hit
  exact tagged_tkv t its it hit

theorem buildIndex_id_in_path (json : JNsi α)
    (hnd : (json.nsi.map Prod.fst).Nodup) (i : Str) (it : Item α)
    (h : jsGet (buildIndex json).id i = some it) :
    ∃ l, jsGet (buildIndex json).path it.tkv = some l ∧ it ∈ l := by
  rw [buildIndex_id_lookup] at h
  obtain ⟨hmem, _⟩ := lastWithId_mem _ _ _ h
  rcases mem_allTagged _ _ hmem with ⟨e, he, its, hits, hin⟩
  have htkv : it.tkv = e.1 := tagged_tkv _ _ _ hin
  refine ⟨its.map (tagItem e.1), ?_, hin⟩
  rw [htkv]
  have := buildAux_path_of_mem json.nsi [] [] hnd e.1 e.2
    (by rcases e with ⟨a, b⟩; exact he)
  rw [hits] at this
  exact this
/-! ## Outbound parameter ordering and icon-table lemmas -/

/-- The value the outbound ordering loop stores for a key, written from the
spec's words ("include a key only if the current parameters have a truthy
value for it, except `t`, which defaults to `brands`"), to be compared with
the loop the code runs. -/
def orderedValue (params : QueryParams) (k : Str) : Option Str :=
  match jsGet params k with
  | some v =>
    if !v.isEmpty then some v
    else if k = ("t".data) then some ("brands".data) else none
  | none => if k = ("t".data) then some ("brands".data) else none

/-- The ordered parameter set, written from the spec's words: walk the fixed
key order and keep each key's `orderedValue` when present. -/
def orderedParamsSpec (params : QueryParams) : QueryParams :=
  paramKeys.filterMap (fun k => (orderedValue params k).map (fun v => (k, v)))

theorem foldl_insert_filterMap (g : Str → Option Str) (ks : List Str)
    (init : QueryParams) (hf : ∀ k ∈ ks, ¬ k ∈ init.map Prod.fst)
    (hnd : ks.Nodup) :
    ks.foldl
        (fun np k =>
          match g k with
          | some v => jsInsert np k v
          | none => np) init =
      init ++ ks.filterMap (fun k => (g k).map (fun v => (k, v))) := by
  induction ks generalizing init with
  | nil => simp
  | cons k t ih =>
    simp only [List.nodup_cons] at hnd
    rcases hg : g k with _ | v
    · rw [List.foldl_cons, List.filterMap_cons]
      simp only [hg, Option.map_none']
      exact ih init (fun k' hk' => hf k' (List.mem_cons_of_mem _ hk')) hnd.2
    · rw [List.foldl_cons, List.filterMap_cons]
      simp only [hg, Option.map_some']
      rw [jsInsert_of_not_mem init k v (hf k (List.mem_cons_self _ _))]
      rw [ih (init ++ [(k, v)]) ?_ hnd.2]
      · rw [List.append_assoc]
        rfl
      · intro k' hk'
        simp only [List.map_append, List.mem_append, List.map_cons, List.map_nil,
          List.mem_singleton, not_or]
        refine ⟨hf k' (List.mem_cons_of_mem _ hk'), fun h' => ?_⟩
        exact hnd.1 (h' ▸ hk')

theorem orderedParams_eq_spec (params : QueryParams) :
    orderedParams params = orderedParamsSpec params := by
  have hstep : (fun (np : QueryParams) (k : Str) =>
      match jsGet params k with
      | some v =>
        if !v.isEmpty then jsInsert np k v
        else if k = ("t".data) then jsInsert np k ("brands".data) else np
      | none =>
        if k = ("t".data) then jsInsert np k ("brands".data) else np) =
      (fun np k =>
        match orderedValue params k with
        | some v => jsInsert np k v
        | none => np) := by
    funext np k
    rw [orderedValue]
    rcases jsGet params k with _ | v
    · by_cases h : k = ("t".data) <;> simp [h]
    · by_cases hv : v.isEmpty <;> by_cases h : k = ("t".data) <;> simp [hv, h]
  rw [orderedParams, hstep,
    foldl_insert_filterMap _ _ _ (by simp) (by decide), orderedParamsSpec]
  rw [List.nil_append]

/-- The icon-table entry the spec predicts for a composite key: the last tag
in source order that contributes (truthy icon URL and key) and whose
composite key matches. -/
def iconSpec (tags : List Tag) (kv : Str) : Option Str :=
  tags.foldl
    (fun acc tag =>
      if jsTruthy tag.icon_url = true ∧ jsTruthy tag.key = true ∧ iconKV tag = kv
      then tag.icon_url.map id
      else acc)
    none

theorem buildIcons_foldl_lookup (tags : List Tag) (init : List (Str × Str))
    (kv : Str) :
    jsGet (tags.foldl
        (fun icons tag =>
          if !jsTruthy tag.icon_url || !jsTruthy tag.key then icons
          else jsInsert icons (iconKV tag) (tag.icon_url.getD [])) init) kv =
      tags.foldl
        (fun acc tag =>
          if jsTruthy tag.icon_url = true ∧ jsTruthy tag.key = true ∧ iconKV tag = kv
          then tag.icon_url.map id
          else acc)
        (jsGet init kv) := by
  induction tags generalizing init with
  | nil => rfl
  | cons tag t ih =>
    rw [List.foldl_cons, List.foldl_cons]
    by_cases hskip : (!jsTruthy tag.icon_url || !jsTruthy tag.key) = true
    · rw [if_pos hskip, ih]
      congr 1
      have : ¬ (jsTruthy tag.icon_url = true ∧ jsTruthy tag.key = true ∧
          iconKV tag = kv) := by
        intro ⟨h1, h2, _⟩
        rw [h1, h2] at hskip
        simp at hskip
      rw [if_neg this]
    · simp only [Bool.or_eq_true, Bool.not_eq_true'] at hskip
      push_neg at hskip
      have h1 : jsTruthy tag.icon_url = true := by
        rcases Bool.eq_false_or_eq_true (jsTruthy tag.icon_url) with h | h
        · exact h
        · exact absurd h hskip.1
      have h2 : jsTruthy tag.key = true := by
        rcases Bool.eq_false_or_eq_true (jsTruthy tag.key) with h | h
        · exact h
        · exact absurd h hskip.2
      rw [if_neg (by rw [h1, h2]; simp), ih, jsGet_jsInsert]
      congr 1
      by_cases hkv : iconKV tag = kv
      · rw [if_pos hkv, if_pos ⟨h1, h2, hkv⟩]
        rcases tag with ⟨tk, tv, tu⟩
        rcases tu with _ | u
        · simp [jsTruthy] at h1
        · rfl
      · rw [if_neg hkv, if_neg (fun hc => hkv hc.2.2)]

theorem buildIcons_lookup (tags : List Tag) (kv : Str) :
    jsGet (buildIcons tags) kv = iconSpec tags kv :=
  buildIcons_foldl_lookup tags [] kv
/-! ## Claim theorems -/

/-- C1 (counterexample): with the inbound did-change flag set, an unchanged
query string but a differing hash, the outbound effect still navigates —
because `&&` binds tighter than `||`, the flag only guards the query-string
disjunct. -/
theorem outbound_guard_bypass_cex :
    outboundSync ⟨("/".data), ("?t=brands".data), []⟩ false true ⟨[], ("#a".data)⟩ =
      some ("/?t=brands#a".data) := by decide

/-- C1 (amended): the outbound sync navigates exactly when the index is not
loading and either (the inbound sync did not change location this tick and
the newly built query string differs from the location's) or (the hash
differs from the location's); the did-change flag suppresses only the
query-string trigger, not the hash trigger. -/
theorem outbound_nav_condition (loc : Loc) (indexLoading didChangeLocation : Bool)
    (st : SyncState) :
    (outboundSync loc indexLoading didChangeLocation st).isSome = true ↔
      (indexLoading = false ∧
        ((didChangeLocation = false ∧
            '?' :: qsString (orderedParams st.params) ≠ loc.search) ∨
          st.hash ≠ loc.hash)) := by
  rcases indexLoading with _ | _
  · rw [outboundSync]
    simp only [Bool.false_eq_true, if_false]
    by_cases h : (didChangeLocation = false ∧
        '?' :: qsString (orderedParams st.params) ≠ loc.search) ∨ st.hash ≠ loc.hash
    · rw [if_pos h]
      simp [h]
    · rw [if_neg h]
      simp [h]
  · rw [outboundSync]
    simp

/-- C7: when the location already holds exactly the query string and hash the
outbound sync would build, the sync performs no navigation (idempotence at a
fixed point). -/
theorem outbound_fixed_point_no_nav (loc : Loc) (indexLoading didChangeLocation : Bool)
    (st : SyncState)
    (hsearch : loc.search = '?' :: qsString (orderedParams st.params))
    (hhash : loc.hash = st.hash) :
    outboundSync loc indexLoading didChangeLocation st = none := by
  rcases indexLoading with _ | _
  · rw [outboundSync]
    simp only [Bool.false_eq_true, if_false]
    rw [if_neg]
    simp [hsearch, hhash]
  · rw [outboundSync]
    simp

/-- C7 witness at a concrete fixed point. -/
theorem outbound_fixed_point_no_nav_witness :
    (⟨("/".data), ("?t=brands".data), []⟩ : Loc).search =
        '?' :: qsString (orderedParams (⟨[], []⟩ : SyncState).params) ∧
    (⟨("/".data), ("?t=brands".data), []⟩ : Loc).hash = (⟨[], []⟩ : SyncState).hash ∧
    outboundSync ⟨("/".data), ("?t=brands".data), []⟩ false false ⟨[], []⟩ = none :=
  ⟨by decide, by decide,
    outbound_fixed_point_no_nav _ false false _ (by decide) (by decide)⟩

/-- C8: for each of the three loaders, an error outcome (failed fetch or
failed JSON parse) leaves the state untouched — `loading` starts `true` and
becomes `false` exactly on the successful-parse path. -/
theorem loader_error_keeps_loading :
    (∀ (β : Type) (st : Option β × Bool) (e : FetchError),
      useFetchRun st (Except.error e) = st) ∧
    (∀ (α : Type) (st : Option (NsiIndex α) × Bool) (e : FetchError),
      useNsiRun st (Except.error e) = st) ∧
    (∀ (st : Option (List (Str × Str)) × Bool) (e : FetchError),
      useTaginfoRun st (Except.error e) = st) ∧
    (∀ (β : Type), (useFetchInit : Option β × Bool).2 = true) ∧
    (∀ (α : Type), (useNsiInit : Option (NsiIndex α) × Bool).2 = true) ∧
    useTaginfoInit.2 = true ∧
    (∀ (β : Type) (r : Except FetchError β),
      ((useFetchRun useFetchInit r).2 = false ↔ ∃ j, r = Except.ok j)) ∧
    (∀ (α : Type) (r : Except FetchError (JNsi α)),
      ((useNsiRun useNsiInit r).2 = false ↔ ∃ j, r = Except.ok j)) ∧
    (∀ (r : Except FetchError JTaginfo),
      ((useTaginfoRun useTaginfoInit r).2 = false ↔ ∃ j, r = Except.ok j)) := by
  refine ⟨fun β st e => rfl, fun α st e => rfl, fun st e => rfl,
    fun β => rfl, fun α => rfl, rfl, fun β r => ?_, fun α r => ?_, fun r => ?_⟩ <;>
    rcases r with j | e <;> simp [useFetchRun, useNsiRun, useTaginfoRun,
      useFetchInit, useNsiInit, useTaginfoInit]

/-- C4: the outbound sync builds its ordered parameter set exactly as the
spec describes (walk the fixed key order, keep truthy values, default `t` to
`brands`), and the spec's example query string comes out as stated. -/
theorem orderedParams_spec_correct :
    (∀ params : QueryParams, orderedParams params = orderedParamsSpec params) ∧
    qsString (orderedParams [(("k".data), ("cafe".data)), (("v".data), ("Foo".data))]) =
      ("t=brands&k=cafe&v=Foo".data) :=
  ⟨orderedParams_eq_spec, by decide⟩

/-- C6 (counterexample): a tag whose `value` is present but empty contributes
under `key` alone, not `key + "/"` — truthiness, not presence, decides. -/
theorem icons_empty_value_cex :
    buildIcons [⟨some ("a".data), some [], some ("u".data)⟩] =
      [(("a".data), ("u".data))] ∧
    jsGet (buildIcons [⟨some ("a".data), some [], some ("u".data)⟩]) ("a/".data) =
      none ∧
    (⟨some ("a".data), some [], some ("u".data)⟩ : Tag).value.isSome = true := by
  decide

/-- C6 (amended): a tag contributes an icon-table entry if and only if both
its icon URL and key are truthy; the composite key appends `'/' + value` only
when the value is truthy (present and non-empty); on collisions the last tag
in source order wins — stated as a full characterization of the lookup, plus
the spec's concrete example. -/
theorem icons_contribution_lastwins :
    (∀ (tags : List Tag) (kv : Str), jsGet (buildIcons tags) kv = iconSpec tags kv) ∧
    buildIcons [⟨some ("shop".data), none, some ("u1".data)⟩,
      ⟨some ("shop".data), some ("bakery".data), some ("u2".data)⟩,
      ⟨some ("x".data), none, none⟩] =
      [(("shop".data), ("u1".data)), (("shop/bakery".data), ("u2".data))] :=
  ⟨buildIcons_lookup, by decide⟩
/-- C2 (counterexample): the key `"a b"` contains no raw `=` or `&`, yet the
round trip does not reproduce the map — `stringQs` never percent-decodes
keys, so the key comes back as `"a%20b"`. -/
theorem qs_roundtrip_cex :
    (¬ '=' ∈ ("a b".data : Str)) ∧ (¬ '&' ∈ ("a b".data : Str)) ∧
    (¬ '=' ∈ ("x".data : Str)) ∧ (¬ '&' ∈ ("x".data : Str)) ∧
    stringQs (qsString [(("a b".data), ("x".data))]) ≠
      some [(("a b".data), ("x".data))] ∧
    stringQs (qsString [(("a b".data), ("x".data))]) =
      some [(("a%20b".data), ("x".data))] := by
  decide

/-- C2 (amended): for every parameter map with distinct keys, each of which
is left unchanged by percent-encoding (values are unrestricted), decoding the
encoding reproduces the map exactly. -/
theorem qs_roundtrip_amended (m : QueryParams)
    (hnd : (m.map Prod.fst).Nodup)
    (hkeys : ∀ p ∈ m, encodeURIComponent p.1 = p.1) :
    stringQs (qsString m) = some m := by
  have henc : (m.map (fun p => encodeURIComponent p.1)).Nodup := by
    have : m.map (fun p => encodeURIComponent p.1) = m.map Prod.fst := by
      induction m with
      | nil => rfl
      | cons p t ih =>
        rw [List.map_cons, List.map_cons, hkeys p (List.mem_cons_self _ _),
          ih (List.Nodup.of_cons hnd) (fun q hq => hkeys q (List.mem_cons_of_mem _ hq))]
    rw [this]
    exact hnd
  rw [stringQs_qsString m henc]
  congr 1
  induction m with
  | nil => rfl
  | cons p t ih =>
    rw [List.map_cons, hkeys p (List.mem_cons_self _ _),
      ih (List.Nodup.of_cons hnd) (fun q hq => hkeys q (List.mem_cons_of_mem _ hq))
        (by simpa using henc.of_cons)]

/-- C2 witness at a concrete map with encoding-stable keys. -/
theorem qs_roundtrip_amended_witness :
    (([(("t".data), ("brands".data)), (("k".data), ("ca fe".data))] :
        QueryParams).map Prod.fst).Nodup ∧
    (∀ p ∈ ([(("t".data), ("brands".data)), (("k".data), ("ca fe".data))] :
        QueryParams), encodeURIComponent p.1 = p.1) ∧
    stringQs (qsString [(("t".data), ("brands".data)), (("k".data), ("ca fe".data))]) =
      some [(("t".data), ("brands".data)), (("k".data), ("ca fe".data))] :=
  ⟨by decide, by decide, qs_roundtrip_amended _ (by decide) (by decide)⟩

/-- C9: `stringQs` never percent-decodes keys — every key in its result is
literally the text before the `=` of some `&`-segment of the stripped input
(only the value is decoded), and consequently a key that percent-encoding
changes does not survive an encode/decode round trip. -/
theorem stringQs_keys_raw :
    (∀ (s : Str) (m : QueryParams) (k v : Str), stringQs s = some m → (k, v) ∈ m →
      ∃ seg ∈ List.splitOn '&' (stripLead s), ∃ w,
        List.splitOn '=' seg = [k, w] ∧ decodeURIComponent w = some v) ∧
    (∀ (k v : Str) (m : QueryParams), ¬ encodeURIComponent k = k →
      stringQs (qsString [(k, v)]) = some m → ¬ k ∈ m.map Prod.fst) := by
  constructor
  · intro s m k v hs hmem
    rw [stringQs_eq_foldlM] at hs
    rcases foldlM_qsStep_mem _ _ _ hs k v hmem with h | h
    · simp at h
    · exact h
  · intro k v m hk hs
    rw [stringQs_qsString _ (by simp)] at hs
    have hm : m = [(encodeURIComponent k, v)] := (Option.some.inj hs).symm
    rw [hm]
    simp only [List.map_cons, List.map_nil, List.mem_singleton]
    exact fun h => hk h.symm

/-- C9 witness: a concrete decode keeps the raw key, and the key `"a b"`
does not survive the round trip. -/
theorem stringQs_keys_raw_witness :
    (∃ seg ∈ List.splitOn '&' (stripLead ("?a=b".data)), ∃ w,
      List.splitOn '=' seg = [("a".data), w] ∧
      decodeURIComponent w = some ("b".data)) ∧
    ¬ ("a b".data : Str) ∈
      (([(("a%20b".data), ("x".data))] : QueryParams).map Prod.fst) :=
  ⟨stringQs_keys_raw.1 ("?a=b".data) [(("a".data), ("b".data))] ("a".data)
      ("b".data) (by decide) (by decide),
    stringQs_keys_raw.2 ("a b".data) ("x".data) [(("a%20b".data), ("x".data))]
      (by decide) (by decide)⟩
theorem foldl_last_none (l : List (Item α)) (init : Option (Item α)) (i : Str)
    (h : l.foldl (fun acc x => if x.id = i then some x else acc) init = none) :
    init = none ∧ ∀ x ∈ l, ¬ x.id = i := by
  induction l generalizing init with
  | nil => exact ⟨h, by simp⟩
  | cons x t ih =>
    rw [List.foldl_cons] at h
    obtain ⟨hinit, hall⟩ := ih _ h
    by_cases hx : x.id = i
    · rw [if_pos hx] at hinit
      exact Option.noConfusion hinit
    · rw [if_neg hx] at hinit
      refine ⟨hinit, fun y hy => ?_⟩
      rcases List.mem_cons.1 hy with rfl | hy'
      · exact hx
      · exact hall y hy'

theorem mem_allTagged_of (entries : List (Str × JCategory α)) (e : Str × JCategory α)
    (its : List (JItem α)) (it : Item α) (he : e ∈ entries)
    (hits : e.2.items = some its) (hin : it ∈ its.map (tagItem e.1)) :
    it ∈ allTagged entries := by
  induction entries with
  | nil => simp at he
  | cons e' rest ih =>
    rw [allTagged_cons]
    rcases List.mem_cons.1 he with rfl | he'
    · rw [hits]
      exact List.mem_append_left _ hin
    · exact List.mem_append_right _ (ih he')

/-- C5: a category whose `items` field is not an array is skipped (its key is
absent from `byPath`); every kept category's items appear under its key in
source order, each annotated with the owning composite key and present in
`byId` under its id; and every record reachable through `byId` lies in
exactly one `byPath` entry. -/
theorem nsi_index_invariants (α : Type) (json : JNsi α)
    (hnd : (json.nsi.map Prod.fst).Nodup) :
    (∀ tkv cat, (tkv, cat) ∈ json.nsi → cat.items = none →
      jsGet (buildIndex json).path tkv = none) ∧
    (∀ tkv cat its, (tkv, cat) ∈ json.nsi → cat.items = some its →
      jsGet (buildIndex json).path tkv = some (its.map (tagItem tkv)) ∧
      ∀ it ∈ its.map (tagItem tkv), it.tkv = tkv ∧
        ∃ r, jsGet (buildIndex json).id it.id = some r) ∧
    (∀ i it, jsGet (buildIndex json).id i = some it →
      ∃ l, jsGet (buildIndex json).path it.tkv = some l ∧ it ∈ l ∧
        ∀ t' l', jsGet (buildIndex json).path t' = some l' → it ∈ l' →
          t' = it.tkv) := by
  refine ⟨?_, ?_, ?_⟩
  · intro tkv cat hmem hitems
    have h := buildAux_path_of_mem json.nsi [] [] hnd tkv cat hmem
    rw [hitems] at h
    exact h
  · intro tkv cat its hmem hitems
    have h := buildAux_path_of_mem json.nsi [] [] hnd tkv cat hmem
    rw [hitems] at h
    refine ⟨h, fun it hit => ⟨tagged_tkv _ _ _ hit, ?_⟩⟩
    rcases hlook : jsGet (buildIndex json).id it.id with _ | r
    · rw [buildIndex_id_lookup] at hlook
      obtain ⟨_, hall⟩ := foldl_last_none _ _ _ hlook
      exact absurd rfl
        (hall it (mem_allTagged_of json.nsi (tkv, cat) its it hmem hitems hit))
    · exact ⟨r, rfl⟩
  · intro i it hlook
    obtain ⟨l, hpath, hin⟩ := buildIndex_id_in_path json hnd i it hlook
    exact ⟨l, hpath, hin,
      fun t' l' hp' hin' => (buildIndex_path_mem_tkv json t' l' hp' it hin').symm⟩

/-- The spec's concrete taxonomy example for the index build. -/
def exampleNsi : JNsi Nat :=
  ⟨[(("amenity/cafe/Foo".data), ⟨some [⟨("a1".data), 0⟩]⟩),
    (("bad/cat".data), ⟨none⟩)], 0⟩

/-- C5 witness on the spec's example: the malformed category's key is absent
from `byPath`, and the kept category's item is indexed and annotated. -/
theorem nsi_index_invariants_witness :
    ((exampleNsi.nsi.map Prod.fst).Nodup) ∧
    jsGet (buildIndex exampleNsi).path ("bad/cat".data) = none ∧
    jsGet (buildIndex exampleNsi).path ("amenity/cafe/Foo".data) =
      some [⟨("a1".data), ("amenity/cafe/Foo".data), 0⟩] :=
  ⟨by decide,
    (nsi_index_invariants Nat exampleNsi (by decide)).1 ("bad/cat".data) ⟨none⟩
      (by decide) rfl,
    ((nsi_index_invariants Nat exampleNsi (by decide)).2.1 ("amenity/cafe/Foo".data)
      ⟨some [⟨("a1".data), 0⟩]⟩ [⟨("a1".data), 0⟩] (by decide) rfl).1⟩

/-- C10: `byId` and `byPath` share the same annotated records — every record
found through `byId` is a member of the `byPath` list of its own `tkv`, every
record in a `byPath` list carries that list's key in its `tkv` field, and a
`byId` lookup returns the last inserted item with that id in iteration order. -/
theorem index_alias_invariants (α : Type) (json : JNsi α)
    (hnd : (json.nsi.map Prod.fst).Nodup) :
    (∀ i it, jsGet (buildIndex json).id i = some it →
      ∃ l, jsGet (buildIndex json).path it.tkv = some l ∧ it ∈ l) ∧
    (∀ t l, jsGet (buildIndex json).path t = some l → ∀ it ∈ l, it.tkv = t) ∧
    (∀ i, jsGet (buildIndex json).id i = lastWithId (allTagged json.nsi) i) :=
  ⟨fun i it h => buildIndex_id_in_path json hnd i it h,
    fun t l h => buildIndex_path_mem_tkv json t l h,
    fun i => buildIndex_id_lookup json i⟩

/-- A taxonomy whose two categories contain items sharing an id. -/
def exampleNsiDup : JNsi Nat :=
  ⟨[(("t/k/v1".data), ⟨some [⟨("a".data), 1⟩]⟩),
    (("t/k/v2".data), ⟨some [⟨("a".data), 2⟩]⟩)], 0⟩

/-- C10 witness: on the duplicate-id example, the `byId` lookup agrees with
the last-in-iteration-order characterization (the second item wins). -/
theorem index_alias_invariants_witness :
    ((exampleNsiDup.nsi.map Prod.fst).Nodup) ∧
    jsGet (buildIndex exampleNsiDup).id ("a".data) =
      lastWithId (allTagged exampleNsiDup.nsi) ("a".data) ∧
    lastWithId (allTagged exampleNsiDup.nsi) ("a".data) =
      some ⟨("a".data), ("t/k/v2".data), 2⟩ :=
  ⟨by decide,
    (index_alias_invariants Nat exampleNsiDup (by decide)).2.2 ("a".data),
    by decide⟩
/-- C3: when the decoded query holds a (non-empty) `id`, the index is loaded
and `byId` resolves the id to an item whose `tkv` splits into three parts,
the inbound sync commits: the resulting parameters carry the three parts as
`t`, `k`, `v`, the `id` key is gone, and the hash is `'#' + id`. -/
theorem inbound_id_resolution (α : Type) (loc : Loc) (index : NsiIndex α)
    (st : SyncState) (params0 : QueryParams) (i : Str) (item : Item α)
    (t0 k0 v0 : Str)
    (hdec : stringQs loc.search = some params0)
    (hid : jsGet params0 ("id".data) = some i)
    (hne : i ≠ [])
    (hitem : jsGet index.id i = some item)
    (hparts : (List.splitOn '/' item.tkv).take 3 = [t0, k0, v0]) :
    ∃ ps, inboundSync loc false index st = some (⟨ps, '#' :: i⟩, true) ∧
      jsGet ps ("t".data) = some t0 ∧ jsGet ps ("k".data) = some k0 ∧
      jsGet ps ("v".data) = some v0 ∧ jsGet ps ("id".data) = none := by
  have hie : ¬ i.isEmpty = true := by
    rcases i with _ | ⟨c, t⟩
    · exact absurd rfl hne
    · simp
  have hnp_nodup : ((jsDelete
      (jsInsert (jsInsert (jsInsert params0 ("t".data) t0) ("k".data) k0)
        ("v".data) v0) ("id".data)).map Prod.fst).Nodup :=
    nodupKeys_jsDelete _ _
      (nodupKeys_jsInsert _ _ _
        (nodupKeys_jsInsert _ _ _
          (nodupKeys_jsInsert _ _ _ (stringQs_nodupKeys _ _ hdec))))
  have henc : ((jsDelete
      (jsInsert (jsInsert (jsInsert params0 ("t".data) t0) ("k".data) k0)
        ("v".data) v0) ("id".data)).map
        (fun p => encodeURIComponent p.1)).Nodup := by
    have hcomp : (jsDelete
        (jsInsert (jsInsert (jsInsert params0 ("t".data) t0) ("k".data) k0)
          ("v".data) v0) ("id".data)).map (fun p => encodeURIComponent p.1) =
        ((jsDelete
          (jsInsert (jsInsert (jsInsert params0 ("t".data) t0) ("k".data) k0)
            ("v".data) v0) ("id".data)).map Prod.fst).map encodeURIComponent := by
      rw [List.map_map]
      rfl
    rw [hcomp]
    exact hnp_nodup.map (fun a b h => encode_injective a b h)
  refine ⟨(jsDelete
      (jsInsert (jsInsert (jsInsert params0 ("t".data) t0) ("k".data) k0)
        ("v".data) v0) ("id".data)).map (fun p => (encodeURIComponent p.1, p.2)),
    ?_, ?_, ?_, ?_, ?_⟩
  · rw [inboundSync, hdec]
    simp only []
    rw [hid]
    simp only []
    rw [if_neg hie, if_neg (by simp), hitem]
    simp only [hparts, List.getD_cons_zero, List.getD_cons_succ]
    rw [inboundCommit,
      if_pos (Or.inr (fun hc => search_ne_qsString _ _ hc)),
      stringQs_qsString _ henc]
  · rw [show ("t".data : Str) = encodeURIComponent ("t".data) from by decide,
      jsGet_map_enc, jsGet_jsDelete, if_neg (by decide), jsGet_jsInsert,
      if_neg (by decide), jsGet_jsInsert, if_neg (by decide), jsGet_jsInsert,
      if_pos (by decide)]
  · rw [show ("k".data : Str) = encodeURIComponent ("k".data) from by decide,
      jsGet_map_enc, jsGet_jsDelete, if_neg (by decide), jsGet_jsInsert,
      if_neg (by decide), jsGet_jsInsert, if_pos (by decide)]
  · rw [show ("v".data : Str) = encodeURIComponent ("v".data) from by decide,
      jsGet_map_enc, jsGet_jsDelete, if_neg (by decide), jsGet_jsInsert,
      if_pos (by decide)]
  · rw [show ("id".data : Str) = encodeURIComponent ("id".data) from by decide,
      jsGet_map_enc, jsGet_jsDelete, if_pos (by decide)]

/-- C3 witness: resolving `?id=a1` against an index mapping `a1` to
`amenity/cafe/Foo`. -/
theorem inbound_id_resolution_witness :
    stringQs (("?id=a1".data : Str)) = some [(("id".data), ("a1".data))] ∧
    ∃ ps, inboundSync ⟨("/".data), ("?id=a1".data), []⟩ false
        (⟨[], [(("a1".data),
          ⟨("a1".data), ("amenity/cafe/Foo".data), (0 : Nat)⟩)], none⟩ : NsiIndex Nat)
        ⟨[], []⟩ = some (⟨ps, '#' :: ("a1".data)⟩, true) ∧
      jsGet ps ("t".data) = some ("amenity".data) ∧
      jsGet ps ("k".data) = some ("cafe".data) ∧
      jsGet ps ("v".data) = some ("Foo".data) ∧
      jsGet ps ("id".data) = none :=
  ⟨by decide,
    inbound_id_resolution Nat ⟨("/".data), ("?id=a1".data), []⟩
      ⟨[], [(("a1".data), ⟨("a1".data), ("amenity/cafe/Foo".data), 0⟩)], none⟩
      ⟨[], []⟩ [(("id".data), ("a1".data))] ("a1".data)
      ⟨("a1".data), ("amenity/cafe/Foo".data), 0⟩ ("amenity".data) ("cafe".data)
      ("Foo".data) (by decide) (by decide) (by decide) (by decide) (by decide)⟩
end AppContext
